import Mathlib

/-
  Verification of the portfolio-rebalancing core of roboportfolio
  (src/roboadvisor.py).

  The core algorithm is `Plan.calculate_shares_to_purchase` together with
  `Plan.calculate_leftover_shares_to_purchase` and the allocation-sum
  validation `Plan.validate_allocations`.  Python floats are modelled as
  exact rationals (ℚ); Python ints as ℤ.  The in-place mutation of the
  `Investment` dataclass fields `exact_shares_to_purchase` and
  `shares_to_purchase` is modelled functionally: the rebalance loop becomes
  a `List.map` over the investments (each iteration touches one investment
  and the accumulated `money_left` is the sum of the per-investment
  remainders), and the leftover loop becomes structural recursion over the
  list of visited indices.  `random.shuffle` is modelled by passing the
  visit order `idxs` explicitly: plan order is `List.range n`, a shuffled
  order is an arbitrary duplicate-free permutation of it.
-/

/-- The `Investment` dataclass (roboadvisor.py lines 11-18): one holding of
the plan.  Python initialises the computed fields `num_shares`,
`market_price`, `exact_shares_to_purchase` and `shares_to_purchase` to
`None`; here they are plain fields, since every code path the claims talk
about (a completed plan entering the calculator) has them populated. -/
structure Investment where
  symbol : String
  allocation : ℚ
  num_shares : ℚ
  market_price : ℚ
  exact_shares_to_purchase : ℚ
  shares_to_purchase : ℤ
deriving DecidableEq, Repr

/-- Python runtime faults and library errors the scripts can raise.
`valueError` is what `Plan.validate_allocations` raises (line 90);
`typeError` and `zeroDivisionError` are the faults Python produces for
arithmetic on `None` and for division by `0.0`.  `missingPriceError` and
`invalidPriceError` are the distinct error species named by the spec
(§4.2, §7); they appear here so that "the code signals the distinct
error" is a statable proposition. -/
inductive PyError where
  | valueError
  | typeError
  | zeroDivisionError
  | missingPriceError
  | invalidPriceError
deriving DecidableEq, Repr

/-- Model of `Plan.validate_allocations` (roboadvisor.py lines 85-90): raises
`ValueError` unless the allocations sum to exactly `1.0`.  Note the source
tests `total_allocation != 1.0` with exact equality, no tolerance. -/
def validate_allocations (investments : List Investment) : Except PyError Unit :=
  let total_allocation := (investments.map fun i => i.allocation).sum
  if total_allocation ≠ 1 then Except.error PyError.valueError
  else Except.ok ()

/-- Model of `Plan.calculate_total_stock_value` (lines 92-94). -/
def calculate_total_stock_value (investments : List Investment) : ℚ :=
  (investments.map fun i => i.market_price * i.num_shares).sum

/-- Model of `Plan.calculate_total_value` (lines 96-99). -/
def calculate_total_value (investments : List Investment) (available_cash : ℚ) : ℚ :=
  calculate_total_stock_value investments + available_cash

/-- One iteration of the loop body of `Plan.calculate_shares_to_purchase`
(lines 104-109): set `exact_shares_to_purchase` to
`allocation * total_value / market_price - num_shares` and
`shares_to_purchase` to `int(math.floor(...))`, i.e. the floor. -/
def rebalance_investment (total_value : ℚ) (i : Investment) : Investment :=
  let desired_value := i.allocation * total_value
  let desired_num_shares := desired_value / i.market_price
  let exact := desired_num_shares - i.num_shares
  { i with
    exact_shares_to_purchase := exact
    shares_to_purchase := ⌊exact⌋ }

/-- The state of the investments after the rebalance loop of
`calculate_shares_to_purchase` (lines 102-109), before the leftover pass. -/
def rebalanced (investments : List Investment) (available_cash : ℚ) : List Investment :=
  investments.map (rebalance_investment (calculate_total_value investments available_cash))

/-- The summand added to `money_left` for one investment
(line 110): `market_price * (exact_shares_to_purchase - shares_to_purchase)`,
read off the freshly updated investment. -/
def money_left_of (i : Investment) : ℚ :=
  i.market_price * (i.exact_shares_to_purchase - (i.shares_to_purchase : ℚ))

/-- The accumulated `money_left` at the end of the rebalance loop
(line 110 summed over the loop). -/
def rebalance_money_left (investments : List Investment) (available_cash : ℚ) : ℚ :=
  ((rebalanced investments available_cash).map money_left_of).sum

/-- Model of `Plan.calculate_leftover_shares_to_purchase` (lines 114-123).  The
visit order `idxs` stands for the Python `idxs` list: `range(len(...))`
when `randomly` is false, an arbitrary permutation of it (the outcome of
`random.shuffle`) when `randomly` is true.  For each visited index, if
that investment's `market_price` is at most the remaining `money_left`,
its `shares_to_purchase` is incremented and the price deducted.  Returns
the updated investments together with the final `money_left` of the loop. -/
def calculate_leftover_shares_to_purchase :
    List Investment → ℚ → List ℕ → List Investment × ℚ
  | invs, money, [] => (invs, money)
  | invs, money, idx :: idxs =>
    match invs[idx]? with
    | none => calculate_leftover_shares_to_purchase invs money idxs
    | some inv =>
      if inv.market_price ≤ money then
        calculate_leftover_shares_to_purchase
          (invs.set idx { inv with shares_to_purchase := inv.shares_to_purchase + 1 })
          (money - inv.market_price) idxs
      else
        calculate_leftover_shares_to_purchase invs money idxs

/-- Model of `Plan.calculate_shares_to_purchase` (lines 101-112): the rebalance
loop followed by the leftover pass (the source calls the leftover pass
with its default `randomly=True`; the shuffle outcome is the `idxs`
parameter).  Returns the updated investments. -/
def calculate_shares_to_purchase
    (investments : List Investment) (available_cash : ℚ) (idxs : List ℕ) :
    List Investment :=
  (calculate_leftover_shares_to_purchase
    (rebalanced investments available_cash)
    (rebalance_money_left investments available_cash) idxs).1

/-- The leftover pass as the spec words it (§4.3): a single pass over the
holdings in plan order, topping up each holding by one share exactly when
its price fits in the remaining money.  This definition follows the
SPEC's description; the theorem for the order claim proves it equal to
the source-derived `calculate_leftover_shares_to_purchase` run in plan
order. -/
def leftover_single_pass_spec : List Investment → ℚ → List Investment
  | [], _ => []
  | i :: rest, money =>
    if i.market_price ≤ money then
      { i with shares_to_purchase := i.shares_to_purchase + 1 } ::
        leftover_single_pass_spec rest (money - i.market_price)
    else
      i :: leftover_single_pass_spec rest money

/-- The input fields of an investment: everything the calculator reads,
as opposed to the two computed fields it overwrites. -/
structure InvestmentInputs where
  symbol : String
  allocation : ℚ
  num_shares : ℚ
  market_price : ℚ
deriving DecidableEq, Repr

/-- Projection of an investment onto its input fields. -/
def Investment.inputs (i : Investment) : InvestmentInputs :=
  ⟨i.symbol, i.allocation, i.num_shares, i.market_price⟩

/-- Total dollar cost of the computed purchases:
sum of `shares_to_purchase * market_price` over the holdings. -/
def purchase_cost (investments : List Investment) : ℚ :=
  (investments.map fun i => (i.shares_to_purchase : ℚ) * i.market_price).sum

/-- A holding as it enters the calculator before price completion:
`market_price` may be missing (`None`).  Used to model the Python
runtime faults of `calculate_shares_to_purchase` when a price is
missing or zero. -/
structure InvestmentQuote where
  symbol : String
  allocation : ℚ
  num_shares : ℚ
  market_price : Option ℚ
deriving DecidableEq, Repr

/-- Model of `calculate_total_stock_value` on possibly-missing prices:
`market_price * num_shares` on a `None` price is a Python `TypeError`,
raised at the first offending holding. -/
def quote_stock_value : List InvestmentQuote → Except PyError ℚ
  | [] => Except.ok 0
  | i :: rest =>
    match i.market_price with
    | none => Except.error PyError.typeError
    | some p => do
      let s ← quote_stock_value rest
      Except.ok (p * i.num_shares + s)

/-- The rebalance loop of `calculate_shares_to_purchase` on
possibly-missing prices: `desired_value / market_price` raises
`ZeroDivisionError` on a `0.0` price and `TypeError` on a `None` price
(Python float semantics; no infinity or NaN is ever produced).  Returns
the per-holding `(exact_shares_to_purchase, shares_to_purchase)` pairs. -/
def checked_rebalance_loop (total_value : ℚ) :
    List InvestmentQuote → Except PyError (List (ℚ × ℤ))
  | [] => Except.ok []
  | i :: rest =>
    match i.market_price with
    | none => Except.error PyError.typeError
    | some p =>
      if p = 0 then Except.error PyError.zeroDivisionError
      else do
        let exact := i.allocation * total_value / p - i.num_shares
        let tail ← checked_rebalance_loop total_value rest
        Except.ok ((exact, ⌊exact⌋) :: tail)

/-- Model of `calculate_shares_to_purchase` with Python fault semantics for
missing or zero prices.  The leftover pass performs no division, so the
faults all arise in the total-value computation or the rebalance loop
modelled here. -/
def calculate_shares_checked (investments : List InvestmentQuote)
    (available_cash : ℚ) : Except PyError (List (ℚ × ℤ)) := do
  let stock_value ← quote_stock_value investments
  let total_value := stock_value + available_cash
  checked_rebalance_loop total_value investments

/-- The leftover pass preserves the number of holdings. -/
theorem leftover_length (idxs : List ℕ) (invs : List Investment) (money : ℚ) :
    (calculate_leftover_shares_to_purchase invs money idxs).1.length = invs.length := by
  induction idxs generalizing invs money with
  | nil => rfl
  | cons idx idxs ih =>
    simp only [calculate_leftover_shares_to_purchase]
    rcases h : invs[idx]? with _ | inv
    · exact ih invs money
    · by_cases hle : inv.market_price ≤ money
      · simp only [if_pos hle]
        rw [ih]
        exact List.length_set invs idx _
      · simp only [if_neg hle]
        exact ih invs money

/-- A holding whose index is never visited is untouched by the leftover pass. -/
theorem leftover_getElem?_of_not_mem (idxs : List ℕ) (invs : List Investment)
    (money : ℚ) (k : ℕ) (hk : k ∉ idxs) :
    (calculate_leftover_shares_to_purchase invs money idxs).1[k]? = invs[k]? := by
  induction idxs generalizing invs money with
  | nil => rfl
  | cons idx idxs ih =>
    have hne : idx ≠ k := fun h => hk (h ▸ List.mem_cons_self idx idxs)
    have hk' : k ∉ idxs := fun h => hk (List.mem_cons_of_mem idx h)
    simp only [calculate_leftover_shares_to_purchase]
    rcases h : invs[idx]? with _ | inv
    · exact ih invs money hk'
    · by_cases hle : inv.market_price ≤ money
      · simp only [if_pos hle]
        rw [ih _ _ hk']
        exact List.getElem?_set_ne hne
      · simp only [if_neg hle]
        exact ih invs money hk'

/-- The leftover pass changes no input field of any holding: at every
position, symbol, allocation, current shares and market price survive. -/
theorem leftover_inputs_getElem? (idxs : List ℕ) (invs : List Investment)
    (money : ℚ) (k : ℕ) :
    ((calculate_leftover_shares_to_purchase invs money idxs).1[k]?).map Investment.inputs
      = (invs[k]?).map Investment.inputs := by
  induction idxs generalizing invs money with
  | nil => rfl
  | cons idx idxs ih =>
    simp only [calculate_leftover_shares_to_purchase]
    rcases h : invs[idx]? with _ | inv
    · exact ih invs money
    · by_cases hle : inv.market_price ≤ money
      · simp only [if_pos hle]
        rw [ih]
        by_cases hik : idx = k
        · subst hik
          have hlen : idx < invs.length := (List.getElem?_eq_some_iff.mp h).1
          rw [List.getElem?_set_self hlen, h]
          rfl
        · rw [List.getElem?_set_ne hik]
      · simp only [if_neg hle]
        exact ih invs money

/-- List-level version of `leftover_inputs_getElem?`. -/
theorem leftover_map_inputs (idxs : List ℕ) (invs : List Investment) (money : ℚ) :
    (calculate_leftover_shares_to_purchase invs money idxs).1.map Investment.inputs
      = invs.map Investment.inputs := by
  apply List.ext_getElem?
  intro n
  rw [List.getElem?_map, List.getElem?_map]
  exact leftover_inputs_getElem? idxs invs money n

/-- Replacing one element of a list shifts a mapped sum by the difference
of the images. -/
theorem sum_map_set (f : Investment → ℚ) (l : List Investment) (idx : ℕ)
    (a b : Investment) (h : l[idx]? = some a) :
    ((l.set idx b).map f).sum = (l.map f).sum + f b - f a := by
  induction l generalizing idx with
  | nil => simp at h
  | cons x xs ih =>
    cases idx with
    | zero =>
      rw [List.getElem?_cons_zero] at h
      cases h
      simp [List.set]
      ring
    | succ n =>
      rw [List.getElem?_cons_succ] at h
      rw [List.set_cons_succ]
      simp only [List.map_cons, List.sum_cons, ih n h]
      ring

/-- Money conservation through the leftover pass: every dollar deducted
from `money_left` shows up as purchase cost, so
cost + money is invariant. -/
theorem leftover_cost_conserve (idxs : List ℕ) (invs : List Investment) (money : ℚ) :
    purchase_cost (calculate_leftover_shares_to_purchase invs money idxs).1
      + (calculate_leftover_shares_to_purchase invs money idxs).2
      = purchase_cost invs + money := by
  induction idxs generalizing invs money with
  | nil => rfl
  | cons idx idxs ih =>
    simp only [calculate_leftover_shares_to_purchase]
    rcases h : invs[idx]? with _ | inv
    · exact ih invs money
    · by_cases hle : inv.market_price ≤ money
      · simp only [if_pos hle]
        rw [ih]
        have hset := sum_map_set (fun i => (i.shares_to_purchase : ℚ) * i.market_price)
          invs idx inv { inv with shares_to_purchase := inv.shares_to_purchase + 1 } h
        simp only [purchase_cost] at hset ⊢
        rw [hset]
        push_cast
        ring
      · simp only [if_neg hle]
        exact ih invs money

/-- The leftover pass never drives `money_left` negative: a price is only
deducted when it is at most the remaining money. -/
theorem leftover_money_nonneg (idxs : List ℕ) (invs : List Investment) (money : ℚ)
    (h : 0 ≤ money) :
    0 ≤ (calculate_leftover_shares_to_purchase invs money idxs).2 := by
  induction idxs generalizing invs money with
  | nil => exact h
  | cons idx idxs ih =>
    simp only [calculate_leftover_shares_to_purchase]
    rcases hg : invs[idx]? with _ | inv
    · exact ih invs money h
    · by_cases hle : inv.market_price ≤ money
      · simp only [if_pos hle]
        exact ih _ _ (by linarith)
      · simp only [if_neg hle]
        exact ih invs money h

/-- The leftover pass never decreases a `shares_to_purchase` value, so it
preserves their non-negativity. -/
theorem leftover_shares_nonneg (idxs : List ℕ) (invs : List Investment) (money : ℚ)
    (h : ∀ i ∈ invs, 0 ≤ i.shares_to_purchase) :
    ∀ i ∈ (calculate_leftover_shares_to_purchase invs money idxs).1,
      0 ≤ i.shares_to_purchase := by
  induction idxs generalizing invs money with
  | nil => exact h
  | cons idx idxs ih =>
    simp only [calculate_leftover_shares_to_purchase]
    rcases hg : invs[idx]? with _ | inv
    · exact ih invs money h
    · have hmem : inv ∈ invs := List.getElem?_mem hg
      by_cases hle : inv.market_price ≤ money
      · simp only [if_pos hle]
        apply ih
        intro j hj
        rcases List.mem_or_eq_of_mem_set hj with hj' | hj'
        · exact h j hj'
        · subst hj'
          have := h inv hmem
          simp only
          omega
      · simp only [if_neg hle]
        exact ih invs money h

/-- Visiting only indices ≥ 1 of a cons list leaves the head alone and
acts on the tail. -/
theorem leftover_shift (idxs : List ℕ) (a : Investment) (l : List Investment) (money : ℚ) :
    calculate_leftover_shares_to_purchase (a :: l) money (idxs.map Nat.succ)
      = ((a :: (calculate_leftover_shares_to_purchase l money idxs).1),
         (calculate_leftover_shares_to_purchase l money idxs).2) := by
  induction idxs generalizing l money with
  | nil => rfl
  | cons idx idxs ih =>
    simp only [List.map_cons, calculate_leftover_shares_to_purchase,
      List.getElem?_cons_succ]
    rcases h : l[idx]? with _ | inv
    · exact ih l money
    · by_cases hle : inv.market_price ≤ money
      · simp only [if_pos hle, List.set_cons_succ]
        exact ih _ _
      · simp only [if_neg hle]
        exact ih l money

/-- Run in plan order (`randomly=False`, `idxs = range n`), the
source's leftover pass computes exactly the single front-to-back pass
described by the spec. -/
theorem leftover_range_eq_spec (invs : List Investment) (money : ℚ) :
    (calculate_leftover_shares_to_purchase invs money (List.range invs.length)).1
      = leftover_single_pass_spec invs money := by
  induction invs generalizing money with
  | nil => rfl
  | cons a l ih =>
    rw [List.length_cons, List.range_succ_eq_map]
    simp only [calculate_leftover_shares_to_purchase, List.getElem?_cons_zero,
      leftover_single_pass_spec]
    by_cases hle : a.market_price ≤ money
    · simp only [if_pos hle, List.set]
      rw [leftover_shift]
      rw [ih]
    · simp only [if_neg hle]
      rw [leftover_shift]
      rw [ih]

/-- With a duplicate-free visit order (which both `range(len(...))` and
any `random.shuffle` of it are), each holding is visited at most once and
hence gains at most one extra share in the leftover pass. -/
theorem leftover_at_most_one (idxs : List ℕ) (invs : List Investment) (money : ℚ)
    (hnd : idxs.Nodup) (k : ℕ) (b : Investment)
    (hb : (calculate_leftover_shares_to_purchase invs money idxs).1[k]? = some b) :
    ∃ a, invs[k]? = some a ∧ b.shares_to_purchase ≤ a.shares_to_purchase + 1 := by
  induction idxs generalizing invs money with
  | nil => exact ⟨b, hb, by omega⟩
  | cons idx idxs ih =>
    rw [List.nodup_cons] at hnd
    obtain ⟨hnotmem, hnd'⟩ := hnd
    revert hb
    simp only [calculate_leftover_shares_to_purchase]
    rcases h : invs[idx]? with _ | inv
    · exact fun hb => ih invs money hnd' hb
    · by_cases hle : inv.market_price ≤ money
      · simp only [if_pos hle]
        intro hb
        by_cases hik : idx = k
        · subst hik
          rw [leftover_getElem?_of_not_mem idxs _ _ idx hnotmem] at hb
          have hlen : idx < invs.length := (List.getElem?_eq_some_iff.mp h).1
          rw [List.getElem?_set_self hlen] at hb
          cases hb
          exact ⟨inv, h, le_refl _⟩
        · obtain ⟨a, ha, hle'⟩ := ih _ _ hnd' hb
          rw [List.getElem?_set_ne hik] at ha
          exact ⟨a, ha, hle'⟩
      · simp only [if_neg hle]
        exact fun hb => ih invs money hnd' hb

/-- The fractional remainder reserved for one holding is non-negative
when its price is. -/
theorem money_left_of_rebalance_nonneg (tv : ℚ) (i : Investment)
    (h : 0 ≤ i.market_price) :
    0 ≤ money_left_of (rebalance_investment tv i) := by
  simp only [money_left_of, rebalance_investment]
  apply mul_nonneg h
  have := Int.floor_le (i.allocation * tv / i.market_price - i.num_shares)
  linarith

/-- The fractional remainder reserved for one holding is strictly below
its unit price when the price is positive. -/
theorem money_left_of_rebalance_lt (tv : ℚ) (i : Investment)
    (h : 0 < i.market_price) :
    money_left_of (rebalance_investment tv i) < i.market_price := by
  simp only [money_left_of, rebalance_investment]
  have hfl := Int.lt_floor_add_one (i.allocation * tv / i.market_price - i.num_shares)
  nlinarith

/-- The accumulated `money_left` entering the leftover pass is
non-negative whenever market prices are positive. -/
theorem rebalance_money_left_nonneg (invs : List Investment) (cash : ℚ)
    (h : ∀ i ∈ invs, 0 < i.market_price) :
    0 ≤ rebalance_money_left invs cash := by
  apply List.sum_nonneg
  intro x hx
  rw [List.mem_map] at hx
  obtain ⟨j, hj, rfl⟩ := hx
  rw [rebalanced, List.mem_map] at hj
  obtain ⟨i, hi, rfl⟩ := hj
  exact money_left_of_rebalance_nonneg _ i (le_of_lt (h i hi))

/-- Per-holding accounting of the rebalance loop: purchase cost plus the
reserved fractional money equals target value minus current stock value. -/
theorem rebalance_budget_aux (tv : ℚ) (l : List Investment)
    (h : ∀ i ∈ l, i.market_price ≠ 0) :
    purchase_cost (l.map (rebalance_investment tv))
      + ((l.map (rebalance_investment tv)).map money_left_of).sum
    = tv * (l.map fun i => i.allocation).sum
      - (l.map fun i => i.market_price * i.num_shares).sum := by
  induction l with
  | nil => simp [purchase_cost]
  | cons a l ih =>
    have hp : a.market_price ≠ 0 := h a (List.mem_cons_self a l)
    have ih' := ih fun i hi => h i (List.mem_cons_of_mem a hi)
    simp only [List.map_cons, List.sum_cons, purchase_cost] at ih' ⊢
    simp only [rebalance_investment, money_left_of]
    have key : a.market_price * (a.allocation * tv / a.market_price)
        = a.allocation * tv := by
      rw [mul_comm, div_mul_cancel₀ _ hp]
    linear_combination ih' + key

/-- The budget identity: after the rebalance loop, purchase cost plus
`money_left` equals exactly the available cash, provided allocations sum
to 1 and no price is zero. -/
theorem rebalance_budget_identity (invs : List Investment) (cash : ℚ)
    (hp : ∀ i ∈ invs, i.market_price ≠ 0)
    (ha : (invs.map fun i => i.allocation).sum = 1) :
    purchase_cost (rebalanced invs cash) + rebalance_money_left invs cash = cash := by
  unfold rebalance_money_left rebalanced
  rw [rebalance_budget_aux _ _ hp, ha]
  unfold calculate_total_value calculate_total_stock_value
  ring

/-- Two investments with the same input fields rebalance identically. -/
theorem rebalance_investment_inputs_congr (tv : ℚ) {i j : Investment}
    (h : i.inputs = j.inputs) :
    rebalance_investment tv i = rebalance_investment tv j := by
  cases i
  cases j
  simp only [Investment.inputs, InvestmentInputs.mk.injEq] at h
  obtain ⟨h1, h2, h3, h4⟩ := h
  subst h1
  subst h2
  subst h3
  subst h4
  rfl

/-- The total stock value only reads input fields. -/
theorem map_inputs_stock_value {l₁ l₂ : List Investment}
    (h : l₁.map Investment.inputs = l₂.map Investment.inputs) :
    calculate_total_stock_value l₁ = calculate_total_stock_value l₂ := by
  unfold calculate_total_stock_value
  have hv : ∀ l : List Investment,
      (l.map fun i => i.market_price * i.num_shares)
        = (l.map Investment.inputs).map fun v => v.market_price * v.num_shares := by
    intro l
    rw [List.map_map]
    rfl
  rw [hv, hv, h]

/-- Mapping the rebalance step over two input-equal lists gives equal
results. -/
theorem map_rebalance_congr (tv : ℚ) {l₁ l₂ : List Investment}
    (h : l₁.map Investment.inputs = l₂.map Investment.inputs) :
    l₁.map (rebalance_investment tv) = l₂.map (rebalance_investment tv) := by
  induction l₁ generalizing l₂ with
  | nil =>
    cases l₂ with
    | nil => rfl
    | cons b l => simp at h
  | cons a l ih =>
    cases l₂ with
    | nil => simp at h
    | cons b l' =>
      simp only [List.map_cons, List.cons.injEq] at h ⊢
      exact ⟨rebalance_investment_inputs_congr tv h.1, ih h.2⟩

/-- The rebalanced state depends only on the input fields of the plan. -/
theorem rebalanced_congr (cash : ℚ) {l₁ l₂ : List Investment}
    (h : l₁.map Investment.inputs = l₂.map Investment.inputs) :
    rebalanced l₁ cash = rebalanced l₂ cash := by
  unfold rebalanced calculate_total_value
  rw [map_inputs_stock_value h]
  exact map_rebalance_congr _ h

/-- The whole calculator depends only on the input fields of the plan
(and the cash and visit order). -/
theorem calc_congr (cash : ℚ) (idxs : List ℕ) {l₁ l₂ : List Investment}
    (h : l₁.map Investment.inputs = l₂.map Investment.inputs) :
    calculate_shares_to_purchase l₁ cash idxs
      = calculate_shares_to_purchase l₂ cash idxs := by
  unfold calculate_shares_to_purchase rebalance_money_left
  rw [rebalanced_congr cash h]

/-- The rebalance loop rewrites only the two computed fields. -/
theorem rebalanced_map_inputs (invs : List Investment) (cash : ℚ) :
    (rebalanced invs cash).map Investment.inputs = invs.map Investment.inputs := by
  unfold rebalanced
  rw [List.map_map]
  rfl

/-- The whole calculator rewrites only the two computed fields. -/
theorem calc_preserves_inputs (invs : List Investment) (cash : ℚ) (idxs : List ℕ) :
    (calculate_shares_to_purchase invs cash idxs).map Investment.inputs
      = invs.map Investment.inputs := by
  unfold calculate_shares_to_purchase
  rw [leftover_map_inputs]
  exact rebalanced_map_inputs invs cash

/-- The calculator returns as many holdings as it was given. -/
theorem calc_length (invs : List Investment) (cash : ℚ) (idxs : List ℕ) :
    (calculate_shares_to_purchase invs cash idxs).length = invs.length := by
  unfold calculate_shares_to_purchase
  rw [leftover_length]
  unfold rebalanced
  exact List.length_map invs _

/-- A missing price anywhere makes the total-stock-value sum raise
`TypeError`. -/
theorem quote_stock_value_typeError (invs : List InvestmentQuote)
    (h : ∃ i ∈ invs, i.market_price = none) :
    quote_stock_value invs = Except.error PyError.typeError := by
  induction invs with
  | nil =>
    obtain ⟨i, hi, _⟩ := h
    simp at hi
  | cons a l ih =>
    obtain ⟨i, hi, hnone⟩ := h
    rcases hap : a.market_price with _ | p
    · simp only [quote_stock_value, hap]
    · rcases List.mem_cons.mp hi with rfl | hmem
      · rw [hap] at hnone
        cases hnone
      · simp only [quote_stock_value, hap, ih ⟨i, hmem, hnone⟩]
        rfl

/-- With every price present, the total-stock-value sum succeeds. -/
theorem quote_stock_value_ok (invs : List InvestmentQuote)
    (h : ∀ i ∈ invs, i.market_price ≠ none) :
    ∃ s, quote_stock_value invs = Except.ok s := by
  induction invs with
  | nil => exact ⟨0, rfl⟩
  | cons a l ih =>
    obtain ⟨s, hs⟩ := ih fun i hi => h i (List.mem_cons_of_mem a hi)
    rcases hap : a.market_price with _ | p
    · exact absurd hap (h a (List.mem_cons_self a l))
    · refine ⟨p * a.num_shares + s, ?_⟩
      simp only [quote_stock_value, hap, hs]
      rfl

/-- With every price present but some price equal to zero, the checked
rebalance loop raises `ZeroDivisionError`. -/
theorem checked_loop_zeroDiv (tv : ℚ) (invs : List InvestmentQuote)
    (hn : ∀ i ∈ invs, i.market_price ≠ none)
    (hz : ∃ i ∈ invs, i.market_price = some 0) :
    checked_rebalance_loop tv invs = Except.error PyError.zeroDivisionError := by
  induction invs with
  | nil =>
    obtain ⟨i, hi, _⟩ := hz
    simp at hi
  | cons a l ih =>
    rcases hap : a.market_price with _ | p
    · exact absurd hap (hn a (List.mem_cons_self a l))
    · simp only [checked_rebalance_loop, hap]
      by_cases hp0 : p = 0
      · rw [if_pos hp0]
      · rw [if_neg hp0]
        have hz' : ∃ i ∈ l, i.market_price = some 0 := by
          obtain ⟨i, hi, h0⟩ := hz
          rcases List.mem_cons.mp hi with rfl | hm
          · rw [hap] at h0
            cases h0
            exact absurd rfl hp0
          · exact ⟨i, hm, h0⟩
        rw [ih (fun i hi => hn i (List.mem_cons_of_mem a hi)) hz']
        rfl

/-- C1: for every plan and positive market prices, the rebalance loop of
`calculate_shares_to_purchase` computes, per holding,
`exactSharesToPurchase = targetAllocation * totalValue / marketPrice -
currentShares` with `totalValue` the stock value plus cash, sets
`sharesToPurchase` to the floor of it (flooring, not truncation toward
zero: `⌊⌋` rounds toward negative infinity), and all of this before the
leftover pass runs (the calculator is exactly the leftover pass applied
to the rebalanced state). -/
theorem claim_rebalance_formulas (invs : List Investment) (cash : ℚ) (idxs : List ℕ)
    (_hp : ∀ i ∈ invs, 0 < i.market_price) :
    calculate_total_value invs cash
      = (invs.map fun i => i.market_price * i.num_shares).sum + cash
    ∧ (∀ (k : ℕ) (a : Investment), invs[k]? = some a →
        ∃ b, (rebalanced invs cash)[k]? = some b
          ∧ b.exact_shares_to_purchase
              = a.allocation * calculate_total_value invs cash / a.market_price
                - a.num_shares
          ∧ b.shares_to_purchase = ⌊b.exact_shares_to_purchase⌋)
    ∧ calculate_shares_to_purchase invs cash idxs
        = (calculate_leftover_shares_to_purchase (rebalanced invs cash)
            (rebalance_money_left invs cash) idxs).1 := by
  refine ⟨rfl, ?_, rfl⟩
  intro k a ha
  refine ⟨rebalance_investment (calculate_total_value invs cash) a, ?_, rfl, rfl⟩
  rw [rebalanced, List.getElem?_map, ha]
  rfl

/-- C2: with positive prices and allocations summing to 1, the total
dollar cost of the computed purchases after the leftover pass never
exceeds `totalValue - totalStockValue(before)` (the available cash).  The
code in fact achieves this with zero slack, which is within the claimed
one-unit-share slack. -/
theorem claim_budget_bound (invs : List Investment) (cash : ℚ) (idxs : List ℕ)
    (hp : ∀ i ∈ invs, 0 < i.market_price)
    (ha : (invs.map fun i => i.allocation).sum = 1) :
    purchase_cost (calculate_shares_to_purchase invs cash idxs)
      ≤ calculate_total_value invs cash - calculate_total_stock_value invs := by
  have hcash : calculate_total_value invs cash - calculate_total_stock_value invs
      = cash := by
    unfold calculate_total_value
    ring
  rw [hcash]
  have h0 : 0 ≤ rebalance_money_left invs cash :=
    rebalance_money_left_nonneg invs cash hp
  have hcons := leftover_cost_conserve idxs (rebalanced invs cash)
    (rebalance_money_left invs cash)
  have hid := rebalance_budget_identity invs cash
    (fun i hi => ne_of_gt (hp i hi)) ha
  have hmf := leftover_money_nonneg idxs (rebalanced invs cash)
    (rebalance_money_left invs cash) h0
  unfold calculate_shares_to_purchase
  linarith

/-- C5: the leftover distributor makes exactly one pass: run in plan
order (`idxs = range n`, the `randomly=False` case) it equals the
single front-to-back pass that increments a holding precisely when its
price fits the remaining money at its turn; and for any duplicate-free
visit order (plan order or any shuffle outcome) no holding is visited
twice, so each gains at most one extra share. -/
theorem claim_leftover_single_pass (invs : List Investment) (money : ℚ)
    (idxs : List ℕ) (hnd : idxs.Nodup) :
    (calculate_leftover_shares_to_purchase invs money (List.range invs.length)).1
      = leftover_single_pass_spec invs money
    ∧ ∀ (k : ℕ) (b : Investment),
        (calculate_leftover_shares_to_purchase invs money idxs).1[k]? = some b →
        ∃ a, invs[k]? = some a
          ∧ b.shares_to_purchase ≤ a.shares_to_purchase + 1 :=
  ⟨leftover_range_eq_spec invs money,
   fun k b hb => leftover_at_most_one idxs invs money hnd k b hb⟩

/-- C7: with non-randomized leftover distribution the calculator is
idempotent: running it again on the holdings it produced (same
allocations, current shares, market prices and cash — the only fields it
reads) returns exactly the same output. -/
theorem claim_idempotent (invs : List Investment) (cash : ℚ) :
    calculate_shares_to_purchase
        (calculate_shares_to_purchase invs cash (List.range invs.length)) cash
        (List.range (calculate_shares_to_purchase invs cash
          (List.range invs.length)).length)
      = calculate_shares_to_purchase invs cash (List.range invs.length) := by
  rw [calc_length]
  exact calc_congr cash (List.range invs.length)
    (calc_preserves_inputs invs cash (List.range invs.length))

/-- C9: with positive prices, `money_left` is non-negative at every point
of the calculation: each per-holding fractional remainder lies in
`[0, marketPrice)`, the accumulated `money_left` entering the leftover
pass is non-negative, and it stays non-negative after every step of the
leftover pass (every prefix of the visit order). -/
theorem claim_money_invariant (invs : List Investment) (cash : ℚ) (idxs : List ℕ)
    (hp : ∀ i ∈ invs, 0 < i.market_price) :
    (∀ i ∈ rebalanced invs cash,
        0 ≤ money_left_of i ∧ money_left_of i < i.market_price)
    ∧ 0 ≤ rebalance_money_left invs cash
    ∧ ∀ j, 0 ≤ (calculate_leftover_shares_to_purchase (rebalanced invs cash)
          (rebalance_money_left invs cash) (idxs.take j)).2 := by
  refine ⟨?_, rebalance_money_left_nonneg invs cash hp, ?_⟩
  · intro i hi
    rw [rebalanced, List.mem_map] at hi
    obtain ⟨a, ha, rfl⟩ := hi
    have hpa := hp a ha
    exact ⟨money_left_of_rebalance_nonneg _ a (le_of_lt hpa),
      money_left_of_rebalance_lt (calculate_total_value invs cash) a hpa⟩
  · intro j
    exact leftover_money_nonneg (idxs.take j) (rebalanced invs cash)
      (rebalance_money_left invs cash) (rebalance_money_left_nonneg invs cash hp)

/-- C10: the calculator mutates only the computed fields: at every
position the symbol, allocation, current shares and market price of the
returned list agree with the input plan, and the list has the plan's
length and order — for every visit order of the leftover pass, shuffled
or not. -/
theorem claim_frame_only_computed_fields (invs : List Investment) (cash : ℚ)
    (idxs : List ℕ) :
    (calculate_shares_to_purchase invs cash idxs).length = invs.length
    ∧ (calculate_shares_to_purchase invs cash idxs).map (fun i => i.symbol)
        = invs.map (fun i => i.symbol)
    ∧ (calculate_shares_to_purchase invs cash idxs).map (fun i => i.allocation)
        = invs.map (fun i => i.allocation)
    ∧ (calculate_shares_to_purchase invs cash idxs).map (fun i => i.num_shares)
        = invs.map (fun i => i.num_shares)
    ∧ (calculate_shares_to_purchase invs cash idxs).map (fun i => i.market_price)
        = invs.map (fun i => i.market_price) := by
  have h := calc_preserves_inputs invs cash idxs
  have hsym : ∀ l : List Investment,
      l.map (fun i => i.symbol) = (l.map Investment.inputs).map (fun v => v.symbol) := by
    intro l
    rw [List.map_map]
    rfl
  have hall : ∀ l : List Investment,
      l.map (fun i => i.allocation)
        = (l.map Investment.inputs).map (fun v => v.allocation) := by
    intro l
    rw [List.map_map]
    rfl
  have hnum : ∀ l : List Investment,
      l.map (fun i => i.num_shares)
        = (l.map Investment.inputs).map (fun v => v.num_shares) := by
    intro l
    rw [List.map_map]
    rfl
  have hprc : ∀ l : List Investment,
      l.map (fun i => i.market_price)
        = (l.map Investment.inputs).map (fun v => v.market_price) := by
    intro l
    rw [List.map_map]
    rfl
  refine ⟨calc_length invs cash idxs, ?_, ?_, ?_, ?_⟩
  · rw [hsym, hsym, h]
  · rw [hall, hall, h]
  · rw [hnum, hnum, h]
  · rw [hprc, hprc, h]

/-- C8: the concrete scenario of the spec: plan AAPL 0.5 / MSFT 0.5,
prices 100 and 200, no current shares, cash 1000.  Total value is 1000,
the rebalance pass buys 5 AAPL and 2 MSFT leaving 100 of money, and the
leftover pass tops AAPL up to 6 — in plan order and equally under the
only other shuffle order, so the randomized calculator produces it too. -/
theorem claim_scenario_one :
    calculate_total_value
        [⟨"AAPL", 1/2, 0, 100, 0, 0⟩, ⟨"MSFT", 1/2, 0, 200, 0, 0⟩] 1000 = 1000
    ∧ (rebalanced [⟨"AAPL", 1/2, 0, 100, 0, 0⟩, ⟨"MSFT", 1/2, 0, 200, 0, 0⟩]
        1000).map (fun i => i.shares_to_purchase) = [5, 2]
    ∧ rebalance_money_left
        [⟨"AAPL", 1/2, 0, 100, 0, 0⟩, ⟨"MSFT", 1/2, 0, 200, 0, 0⟩] 1000 = 100
    ∧ (calculate_shares_to_purchase
        [⟨"AAPL", 1/2, 0, 100, 0, 0⟩, ⟨"MSFT", 1/2, 0, 200, 0, 0⟩]
        1000 [0, 1]).map (fun i => i.shares_to_purchase) = [6, 2]
    ∧ (calculate_shares_to_purchase
        [⟨"AAPL", 1/2, 0, 100, 0, 0⟩, ⟨"MSFT", 1/2, 0, 200, 0, 0⟩]
        1000 [1, 0]).map (fun i => i.shares_to_purchase) = [6, 2] := by
  have h1 : (⌊(1:ℚ)/2 * (100 * 0 + 200 * 0 + 1000) / 100 - 0⌋ : ℤ) = 5 := by
    apply Int.floor_eq_iff.mpr
    constructor <;> norm_num
  have h2 : (⌊(1:ℚ)/2 * (100 * 0 + 200 * 0 + 1000) / 200 - 0⌋ : ℤ) = 2 := by
    apply Int.floor_eq_iff.mpr
    constructor <;> norm_num
  refine ⟨by norm_num [calculate_total_value, calculate_total_stock_value], ?_, ?_, ?_, ?_⟩ <;>
    · simp only [calculate_shares_to_purchase, rebalanced, rebalance_money_left,
        calculate_total_value, calculate_total_stock_value, rebalance_investment,
        money_left_of, List.map_cons, List.map_nil, List.sum_cons, List.sum_nil,
        calculate_leftover_shares_to_purchase]
      norm_num [h1, h2, calculate_leftover_shares_to_purchase]

/-- C3 (code bug): the source validates with exact floating-point
equality (`total_allocation != 1.0`, line 89), so a plan whose
allocations sum to within the claimed 1e-9 tolerance of 1 — here
1/2 + (1/2 - 10^-12) — is nevertheless rejected with the allocation-sum
`ValueError`, where the claim (and the spec, which flags the exact
equality as a latent bug) says it must be accepted. -/
theorem claim_validation_exact_equality :
    validate_allocations
        [⟨"A", 1/2, 0, 100, 0, 0⟩, ⟨"B", 1/2 - 1/1000000000000, 0, 100, 0, 0⟩]
      = Except.error PyError.valueError
    ∧ |(([(⟨"A", 1/2, 0, 100, 0, 0⟩ : Investment),
          ⟨"B", 1/2 - 1/1000000000000, 0, 100, 0, 0⟩].map
            fun i => i.allocation).sum) - 1| ≤ 1/1000000000 := by
  constructor
  · have hsum : (([(⟨"A", 1/2, 0, 100, 0, 0⟩ : Investment),
        ⟨"B", 1/2 - 1/1000000000000, 0, 100, 0, 0⟩].map
          fun i => i.allocation).sum) ≠ 1 := by
      simp only [List.map_cons, List.map_nil, List.sum_cons, List.sum_nil]
      norm_num
    simp only [validate_allocations]
    rw [if_pos hsum]
  · simp only [List.map_cons, List.map_nil, List.sum_cons, List.sum_nil]
    rw [abs_le]
    constructor <;> norm_num

/-- C4 is false of the code: an over-allocated holding (10 shares of
OVER held, target 1/2 of a 1000 portfolio at price 100) gets
`exactSharesToPurchase = -5`, which the code floors to `-5` and never
clamps, so the calculator returns a negative `sharesToPurchase`. -/
theorem claim_nonneg_counterexample :
    ¬ ∀ i ∈ calculate_shares_to_purchase
        [⟨"OVER", 1/2, 10, 100, 0, 0⟩, ⟨"UNDER", 1/2, 0, 100, 0, 0⟩] 0
        (List.range 2),
        0 ≤ i.shares_to_purchase := by
  intro hall
  have hm5 : (⌊(1:ℚ)/2 * (100 * 10 + 100 * 0 + 0) / 100 - 10⌋ : ℤ) = -5 := by
    apply Int.floor_eq_iff.mpr
    constructor <;> norm_num
  have h5 : (⌊(1:ℚ)/2 * (100 * 10 + 100 * 0 + 0) / 100 - 0⌋ : ℤ) = 5 := by
    apply Int.floor_eq_iff.mpr
    constructor <;> norm_num
  have hmap : (calculate_shares_to_purchase
      [⟨"OVER", 1/2, 10, 100, 0, 0⟩, ⟨"UNDER", 1/2, 0, 100, 0, 0⟩] 0
      (List.range 2)).map (fun i => i.shares_to_purchase) = [-5, 5] := by
    simp only [calculate_shares_to_purchase, rebalanced, rebalance_money_left,
      calculate_total_value, calculate_total_stock_value, rebalance_investment,
      money_left_of, List.map_cons, List.map_nil, List.sum_cons, List.sum_nil,
      List.range_succ, List.range_zero, calculate_leftover_shares_to_purchase]
    norm_num [hm5, h5, calculate_leftover_shares_to_purchase]
  rcases hl : calculate_shares_to_purchase
      [⟨"OVER", 1/2, 10, 100, 0, 0⟩, ⟨"UNDER", 1/2, 0, 100, 0, 0⟩] 0
      (List.range 2) with _ | ⟨x, xs⟩
  · rw [hl] at hmap
    simp at hmap
  · rw [hl] at hmap
    simp only [List.map_cons, List.cons.injEq] at hmap
    have hx := hall x (hl ▸ List.mem_cons_self x xs)
    rw [hmap.1] at hx
    exact absurd hx (by norm_num)

/-- C4 amended: `sharesToPurchase` is non-negative whenever every
holding's `exactSharesToPurchase` comes out non-negative (no holding is
over-allocated); the floor of a non-negative number is non-negative and
the leftover pass only ever increments.  An over-allocated holding,
however, yields a negative value (see the counterexample). -/
theorem claim_nonneg_amended (invs : List Investment) (cash : ℚ) (idxs : List ℕ)
    (h : ∀ i ∈ rebalanced invs cash, 0 ≤ i.exact_shares_to_purchase) :
    ∀ i ∈ calculate_shares_to_purchase invs cash idxs, 0 ≤ i.shares_to_purchase := by
  unfold calculate_shares_to_purchase
  apply leftover_shares_nonneg
  intro i hi
  have hexact := h i hi
  rw [rebalanced, List.mem_map] at hi
  obtain ⟨a, ha, rfl⟩ := hi
  refine Int.le_floor.mpr ?_
  exact_mod_cast hexact

/-- C6 is false of the code as to the error species: a zero price makes
the calculator raise the generic Python `ZeroDivisionError` and a
missing price the generic `TypeError` — not a distinct
`MissingPriceError`/`InvalidPriceError`.  (It is true that no infinite
or NaN share count is silently produced: the call errors instead of
returning.) -/
theorem claim_price_error_counterexample :
    calculate_shares_checked
        [⟨"OK", 1/2, 0, some 100⟩, ⟨"ZERO", 1/2, 0, some 0⟩] 1000
      = Except.error PyError.zeroDivisionError
    ∧ calculate_shares_checked [⟨"MISSING", 1, 0, none⟩] 1000
      = Except.error PyError.typeError
    ∧ PyError.zeroDivisionError ≠ PyError.missingPriceError
    ∧ PyError.zeroDivisionError ≠ PyError.invalidPriceError
    ∧ PyError.typeError ≠ PyError.missingPriceError
    ∧ PyError.typeError ≠ PyError.invalidPriceError := by
  have hn : ∀ i ∈ [(⟨"OK", 1/2, 0, some 100⟩ : InvestmentQuote),
      ⟨"ZERO", 1/2, 0, some 0⟩], i.market_price ≠ none := by
    intro i hi
    rcases List.mem_cons.mp hi with rfl | hi'
    · simp
    · rcases List.mem_cons.mp hi' with rfl | hi''
      · simp
      · simp at hi''
  have hz : ∃ i ∈ [(⟨"OK", 1/2, 0, some 100⟩ : InvestmentQuote),
      ⟨"ZERO", 1/2, 0, some 0⟩], i.market_price = some 0 :=
    ⟨⟨"ZERO", 1/2, 0, some 0⟩,
     List.mem_cons_of_mem _ (List.mem_cons_self _ _), rfl⟩
  obtain ⟨s, hs⟩ := quote_stock_value_ok _ hn
  refine ⟨?_, rfl, ?_, ?_, ?_, ?_⟩
  · unfold calculate_shares_checked
    rw [hs]
    exact checked_loop_zeroDiv (s + 1000) _ hn hz
  all_goals intro hcontra
  all_goals cases hcontra

/-- C6 amended: a zero or missing price always makes the calculator
raise an error — `TypeError` when some price is missing,
`ZeroDivisionError` when all prices are present but one is zero — rather
than silently producing infinite or NaN share counts; no distinct
missing/invalid-price error species exists in the code. -/
theorem claim_price_error_amended (invs : List InvestmentQuote) (cash : ℚ)
    (h : ∃ i ∈ invs, i.market_price = none ∨ i.market_price = some 0) :
    ∃ e, calculate_shares_checked invs cash = Except.error e
      ∧ (e = PyError.typeError ∨ e = PyError.zeroDivisionError) := by
  by_cases hn : ∃ i ∈ invs, i.market_price = none
  · refine ⟨PyError.typeError, ?_, Or.inl rfl⟩
    unfold calculate_shares_checked
    rw [quote_stock_value_typeError invs hn]
    rfl
  · push_neg at hn
    have hz : ∃ i ∈ invs, i.market_price = some 0 := by
      obtain ⟨i, hi, hcase⟩ := h
      rcases hcase with hnone | h0
      · exact absurd hnone (hn i hi)
      · exact ⟨i, hi, h0⟩
    obtain ⟨s, hs⟩ := quote_stock_value_ok invs hn
    refine ⟨PyError.zeroDivisionError, ?_, Or.inr rfl⟩
    unfold calculate_shares_checked
    rw [hs]
    exact checked_loop_zeroDiv (s + cash) invs hn hz

/-- Witness for C1 at a concrete plan: one holding, allocation 1,
1 current share, price 2, no cash. -/
theorem claim_rebalance_formulas_witness :
    ∃ b, (rebalanced [(⟨"A", 1, 1, 2, 0, 0⟩ : Investment)] 0)[0]? = some b
      ∧ b.exact_shares_to_purchase
          = (1 : ℚ) * calculate_total_value [(⟨"A", 1, 1, 2, 0, 0⟩ : Investment)] 0 / 2 - 1
      ∧ b.shares_to_purchase = ⌊b.exact_shares_to_purchase⌋ := by
  have hp : ∀ i ∈ [(⟨"A", 1, 1, 2, 0, 0⟩ : Investment)], 0 < i.market_price := by
    intro i hi
    rcases List.mem_cons.mp hi with rfl | hi'
    · norm_num
    · simp at hi'
  obtain ⟨-, h2, -⟩ := claim_rebalance_formulas [(⟨"A", 1, 1, 2, 0, 0⟩ : Investment)] 0 [0] hp
  exact h2 0 ⟨"A", 1, 1, 2, 0, 0⟩ rfl

/-- Witness for C2 at a concrete plan: one holding, allocation 1,
1 current share, price 2, cash 3. -/
theorem claim_budget_bound_witness :
    purchase_cost (calculate_shares_to_purchase
        [(⟨"A", 1, 1, 2, 0, 0⟩ : Investment)] 3 [0])
      ≤ calculate_total_value [(⟨"A", 1, 1, 2, 0, 0⟩ : Investment)] 3
        - calculate_total_stock_value [(⟨"A", 1, 1, 2, 0, 0⟩ : Investment)] := by
  apply claim_budget_bound
  · intro i hi
    rcases List.mem_cons.mp hi with rfl | hi'
    · norm_num
    · simp at hi'
  · simp

/-- Witness for C5 at a concrete plan and the duplicate-free visit
order `[0]`. -/
theorem claim_leftover_single_pass_witness :
    (calculate_leftover_shares_to_purchase [(⟨"A", 1, 0, 2, 0, 0⟩ : Investment)] 5
        (List.range [(⟨"A", 1, 0, 2, 0, 0⟩ : Investment)].length)).1
      = leftover_single_pass_spec [(⟨"A", 1, 0, 2, 0, 0⟩ : Investment)] 5
    ∧ ∀ (k : ℕ) (b : Investment),
        (calculate_leftover_shares_to_purchase
          [(⟨"A", 1, 0, 2, 0, 0⟩ : Investment)] 5 [0]).1[k]? = some b →
        ∃ a, [(⟨"A", 1, 0, 2, 0, 0⟩ : Investment)][k]? = some a
          ∧ b.shares_to_purchase ≤ a.shares_to_purchase + 1 :=
  claim_leftover_single_pass [(⟨"A", 1, 0, 2, 0, 0⟩ : Investment)] 5 [0] (by decide)

/-- Witness for C9 at a concrete plan: one holding, allocation 1,
no current shares, price 2, cash 3. -/
theorem claim_money_invariant_witness :
    (∀ i ∈ rebalanced [(⟨"A", 1, 0, 2, 0, 0⟩ : Investment)] 3,
        0 ≤ money_left_of i ∧ money_left_of i < i.market_price)
    ∧ 0 ≤ rebalance_money_left [(⟨"A", 1, 0, 2, 0, 0⟩ : Investment)] 3
    ∧ ∀ j, 0 ≤ (calculate_leftover_shares_to_purchase
          (rebalanced [(⟨"A", 1, 0, 2, 0, 0⟩ : Investment)] 3)
          (rebalance_money_left [(⟨"A", 1, 0, 2, 0, 0⟩ : Investment)] 3)
          (([0] : List ℕ).take j)).2 := by
  apply claim_money_invariant
  intro i hi
  rcases List.mem_cons.mp hi with rfl | hi'
  · norm_num
  · simp at hi'

/-- Witness for the amended C4 at a concrete plan with no over-allocated
holding. -/
theorem claim_nonneg_amended_witness :
    (∀ i ∈ rebalanced [(⟨"A", 1, 0, 2, 0, 0⟩ : Investment)] 2,
        0 ≤ i.exact_shares_to_purchase)
    ∧ ∀ i ∈ calculate_shares_to_purchase [(⟨"A", 1, 0, 2, 0, 0⟩ : Investment)] 2 [0],
        0 ≤ i.shares_to_purchase := by
  have h : ∀ i ∈ rebalanced [(⟨"A", 1, 0, 2, 0, 0⟩ : Investment)] 2,
      0 ≤ i.exact_shares_to_purchase := by
    intro i hi
    simp only [rebalanced, List.map_cons, List.map_nil] at hi
    rcases List.mem_cons.mp hi with rfl | hi'
    · simp only [rebalance_investment, calculate_total_value,
        calculate_total_stock_value, List.map_cons, List.map_nil,
        List.sum_cons, List.sum_nil]
      norm_num
    · simp at hi'
  exact ⟨h, claim_nonneg_amended [(⟨"A", 1, 0, 2, 0, 0⟩ : Investment)] 2 [0] h⟩

/-- Witness for the amended C6 at a concrete one-holding plan with a
zero price. -/
theorem claim_price_error_amended_witness :
    ∃ e, calculate_shares_checked [(⟨"Z", 1, 0, some 0⟩ : InvestmentQuote)] 7
        = Except.error e
      ∧ (e = PyError.typeError ∨ e = PyError.zeroDivisionError) :=
  claim_price_error_amended [(⟨"Z", 1, 0, some 0⟩ : InvestmentQuote)] 7
    ⟨⟨"Z", 1, 0, some 0⟩, List.mem_cons_self _ _, Or.inr rfl⟩
